import Mathlib

/-!
Shallow embedding of the Go package `oauth` (OAuth token authentication for
the Anthropic API client): request-option construction (`WithConfig`,
`WithAccessToken`, `WithLoadEnv`), the default beta-flag list
(`DefaultOAuthBetas`), and the request middleware (`oauthMiddleware`) that
merges the `anthropic-beta` header, overrides the user agent and adds the
`beta=true` query parameter.

Go strings are modelled as lists of characters (`Str := List Char`), so every
operation is structurally recursive and kernel-evaluable.  `strings.Split`,
`strings.TrimSpace` and `strings.Join` are translated as `splitOnComma`,
`trimSpace` and `joinComma`.  The Go `map[string]bool` used for
deduplication is modelled as an insertion-ordered list of distinct keys
(`insertKeys`): Go's map iteration order is unspecified, so all theorems
about merge results speak only about the set of keys / tokens, never about
their order.  HTTP headers (`http.Header`, canonical-cased keys, `Get`
returning the empty string when absent, `Set` replacing all values) and URL
query values (`url.Values`) are modelled as association lists with a
first-match lookup and a replace-all `Set`.
-/

set_option autoImplicit false

namespace OAuthSpec

/-- A Go string, modelled as a list of characters. -/
abbrev Str := List Char

/-- Character list of a Lean string literal. -/
def strOf (s : String) : Str := s.data

/-- Go `unicode.IsSpace` restricted to the ASCII whitespace characters
(space, tab, newline, vertical tab, form feed, carriage return); the beta
flags and headers involved are ASCII. -/
def isSpace (c : Char) : Bool :=
  c == ' ' || c == '\t' || c == '\n' || c == Char.ofNat 11 || c == Char.ofNat 12 || c == '\r'

/-- Leading-whitespace removal (first half of Go `strings.TrimSpace`). -/
def dropLead (s : Str) : Str := s.dropWhile isSpace

/-- Trailing-whitespace removal (second half of Go `strings.TrimSpace`). -/
def dropTrail : Str → Str
  | [] => []
  | c :: cs =>
    let r := dropTrail cs
    if r = [] ∧ isSpace c then [] else c :: r

/-- Go `strings.TrimSpace`. -/
def trimSpace (s : Str) : Str := dropTrail (dropLead s)

/-- Go `strings.Split(s, ",")`: the empty string yields one empty token, and
each comma starts a new token. -/
def splitOnComma : Str → List Str
  | [] => [[]]
  | c :: cs =>
    let r := splitOnComma cs
    if c = ',' then [] :: r
    else (c :: r.headI) :: r.tail

/-- Go `strings.Join(ts, ",")`. -/
def joinComma : List Str → Str
  | [] => []
  | [t] => t
  | t :: t2 :: ts => t ++ ',' :: joinComma (t2 :: ts)

/-- Insertion of one key into the deduplication set (`betaSet[k] = true` in
Go), modelled as an insertion-ordered list of distinct keys. -/
def insertKey (ks : List Str) (k : Str) : List Str :=
  if k ∈ ks then ks else ks ++ [k]

/-- Insertion of a sequence of keys, left to right. -/
def insertKeys (ks : List Str) (new : List Str) : List Str :=
  new.foldl insertKey ks

/-- The deduplication keys built by `oauthMiddleware` when the existing
`anthropic-beta` header value is non-empty: each token of the existing value
is trimmed and inserted, then each configured flag is inserted verbatim. -/
def mergedBetaKeys (existing : Str) (flags : List Str) : List Str :=
  insertKeys (insertKeys [] ((splitOnComma existing).map trimSpace)) flags

/-- The `anthropic-beta` header value computed by `oauthMiddleware`: when an
existing value is present the deduplicated keys are joined by commas,
otherwise the configured flags are joined directly. -/
def mergeBetaHeaderValue (existing : Str) (flags : List Str) : Str :=
  if existing ≠ [] then joinComma (mergedBetaKeys existing flags)
  else joinComma flags

/-- An in-flight HTTP request: headers and the (parsed) URL query. -/
structure Request where
  headers : List (Str × Str)
  query : List (Str × Str)

/-- First-match association-list lookup. -/
def lookupVal : List (Str × Str) → Str → Option Str
  | [], _ => none
  | (k2, v) :: rest, k => if k2 = k then some v else lookupVal rest k

/-- Go `http.Header.Get` / `url.Values.Get`: first value, empty if absent. -/
def getVal (l : List (Str × Str)) (k : Str) : Str := (lookupVal l k).getD []

/-- Go `http.Header.Set` / `url.Values.Set`: replace every entry under the
key with the single new value. -/
def setVal (l : List (Str × Str)) (k v : Str) : List (Str × Str) :=
  (k, v) :: l.filter (fun p => decide (p.1 ≠ k))

def betaHeaderKey : Str := strOf "anthropic-beta"
def userAgentKey : Str := strOf "User-Agent"
def authorizationKey : Str := strOf "Authorization"
def betaQueryKey : Str := strOf "beta"
def trueVal : Str := strOf "true"

/-- `oauth.Config`. -/
structure Config where
  accessToken : Str := []
  refreshToken : Str := []
  betas : List Str := []
  userAgent : Str := []
  useBetaEndpoint : Bool := false

/-- `DefaultOAuthBetas`, the beta features used with OAuth authentication. -/
def DefaultOAuthBetas : List Str :=
  [strOf "oauth-2025-04-20",
   strOf "interleaved-thinking-2025-05-14",
   strOf "claude-code-20250219",
   strOf "fine-grained-tool-streaming-2025-05-14"]

/-- First mutation step of `oauthMiddleware`: set the `anthropic-beta`
header to the merged value when the configured flag list is non-empty. -/
def applyBetaHeader (cfg : Config) (r : Request) : Request :=
  if cfg.betas ≠ [] then
    let merged := mergeBetaHeaderValue (getVal r.headers betaHeaderKey) cfg.betas
    { r with headers := setVal r.headers betaHeaderKey merged }
  else r

/-- Second mutation step: override the `User-Agent` header if configured. -/
def applyUserAgent (cfg : Config) (r : Request) : Request :=
  if cfg.userAgent ≠ [] then
    { r with headers := setVal r.headers userAgentKey cfg.userAgent }
  else r

/-- Third mutation step: `q := r.URL.Query(); q.Set("beta", "true");
r.URL.RawQuery = q.Encode()` when `UseBetaEndpoint` is set. -/
def applyBetaQuery (cfg : Config) (r : Request) : Request :=
  if cfg.useBetaEndpoint then
    { r with query := setVal r.query betaQueryKey trueVal }
  else r

/-- The complete request mutation performed by `oauthMiddleware` before it
delegates to `next`. -/
def oauthMutate (cfg : Config) (r : Request) : Request :=
  applyBetaQuery cfg (applyUserAgent cfg (applyBetaHeader cfg r))

/-- `oauthMiddleware cfg`: mutate the request, then call `next` and return
its result (`next` produces the response or the transport error). -/
def oauthMiddleware {α : Type} (cfg : Config) (r : Request) (next : Request → α) : α :=
  next (oauthMutate cfg r)

/-- Modelled from the spec: `option.WithAuthToken` is not part of the
visible source; per the spec, an upstream authorization unit sets the
`Authorization` header to `Bearer <token>`, and an empty access token means
no Authorization header is set by this unit. -/
def withAuthTokenApply (token : Str) (r : Request) : Request :=
  if token = [] then r
  else { r with headers := setVal r.headers authorizationKey (strOf "Bearer " ++ token) }

/-- The beta-flag defaulting performed at the top of `WithConfig`:
`if len(cfg.Betas) == 0 { cfg.Betas = DefaultOAuthBetas }` on a local copy. -/
def effectiveConfig (cfg : Config) : Config :=
  if cfg.betas = [] then { cfg with betas := DefaultOAuthBetas } else cfg

/-- The total request effect of the configuration unit built by
`WithConfig`: the authorization sub-unit (modelled from the spec) composed
with the oauth middleware mutation, both reading the defaulted config. -/
def withConfigApply (cfg : Config) (r : Request) : Request :=
  oauthMutate (effectiveConfig cfg) (withAuthTokenApply (effectiveConfig cfg).accessToken r)

/-- The `Config` built by `WithAccessToken`: only the access token is set. -/
def withAccessTokenConfig (token : Str) : Config :=
  { accessToken := token }

def primaryEnvVar : Str := strOf "ANTHROPIC_OAUTH_ACCESS_TOKEN"
def fallbackEnvVar : Str := strOf "ANTHROPIC_ACCESS_TOKEN"

/-- Credential resolution in `WithLoadEnv`: the environment is an injected
lookup returning the empty string for unset variables, exactly as
`os.Getenv` does. -/
def resolveEnvToken (env : Str → Str) : Str :=
  let accessToken := env primaryEnvVar
  if accessToken = [] then env fallbackEnvVar else accessToken

/-- The `Config` built by `WithLoadEnv`: the environment is consulted once,
at configuration-build time, and only the resolved token is retained. -/
def withLoadEnvConfig (env : Str → Str) : Config :=
  withAccessTokenConfig (resolveEnvToken env)

/-! ### Helper lemmas about the deduplication set -/

theorem mem_insertKey {ks : List Str} {k a : Str} :
    a ∈ insertKey ks k ↔ a ∈ ks ∨ a = k := by
  by_cases h : k ∈ ks <;> simp [insertKey, h]
  rintro rfl
  exact h

theorem nodup_insertKey {ks : List Str} {k : Str} (h : ks.Nodup) :
    (insertKey ks k).Nodup := by
  by_cases hk : k ∈ ks <;> simp [insertKey, hk, List.nodup_append, h]

theorem insertKey_of_mem {ks : List Str} {k : Str} (h : k ∈ ks) :
    insertKey ks k = ks := by
  simp [insertKey, h]

theorem insertKeys_cons {ks : List Str} {x : Str} {xs : List Str} :
    insertKeys ks (x :: xs) = insertKeys (insertKey ks x) xs := rfl

theorem mem_insertKeys {xs ks : List Str} {a : Str} :
    a ∈ insertKeys ks xs ↔ a ∈ ks ∨ a ∈ xs := by
  induction xs generalizing ks with
  | nil => simp [insertKeys]
  | cons x xs ih =>
    rw [insertKeys_cons, ih, mem_insertKey]
    simp [or_assoc]

theorem nodup_insertKeys {xs ks : List Str} (h : ks.Nodup) :
    (insertKeys ks xs).Nodup := by
  induction xs generalizing ks with
  | nil => exact h
  | cons x xs ih => exact insertKeys_cons ▸ ih (nodup_insertKey h)

theorem insertKeys_of_subset {xs ks : List Str} (h : ∀ x ∈ xs, x ∈ ks) :
    insertKeys ks xs = ks := by
  induction xs with
  | nil => rfl
  | cons x xs ih =>
    rw [insertKeys_cons, insertKey_of_mem (h x (by simp))]
    exact ih fun y hy => h y (by simp [hy])

theorem insertKeys_eq_append {xs ks : List Str} (hd : ∀ x ∈ xs, x ∉ ks)
    (hn : xs.Nodup) : insertKeys ks xs = ks ++ xs := by
  induction xs generalizing ks with
  | nil => simp [insertKeys]
  | cons x xs ih =>
    rw [insertKeys_cons, insertKey, if_neg (hd x (by simp))]
    rw [ih]
    · simp
    · intro y hy
      simp only [List.mem_append, List.mem_singleton]
      rintro (hks | rfl)
      · exact hd y (by simp [hy]) hks
      · exact (List.nodup_cons.mp hn).1 hy
    · exact (List.nodup_cons.mp hn).2

theorem insertKeys_nil_of_nodup {xs : List Str} (h : xs.Nodup) :
    insertKeys [] xs = xs := by
  rw [insertKeys_eq_append (by simp) h]
  simp

/-! ### Helper lemmas about splitting, joining and trimming -/

theorem splitOnComma_nil : splitOnComma [] = [[]] := rfl

theorem splitOnComma_cons {c : Char} {cs : Str} :
    splitOnComma (c :: cs) =
      if c = ',' then [] :: splitOnComma cs
      else (c :: (splitOnComma cs).headI) :: (splitOnComma cs).tail := rfl

theorem splitOnComma_ne_nil (s : Str) : splitOnComma s ≠ [] := by
  cases s with
  | nil => simp [splitOnComma_nil]
  | cons c cs => rw [splitOnComma_cons]; split <;> simp

theorem headI_mem {l : List Str} (h : l ≠ []) : l.headI ∈ l := by
  cases l with
  | nil => exact absurd rfl h
  | cons x xs => simp

theorem mem_of_mem_tail {l : List Str} {a : Str} (h : a ∈ l.tail) : a ∈ l := by
  cases l with
  | nil => simp at h
  | cons x xs => exact List.mem_cons_of_mem x h

theorem comma_not_mem_of_mem_splitOnComma {s t : Str}
    (h : t ∈ splitOnComma s) : ',' ∉ t := by
  induction s generalizing t with
  | nil =>
    rw [splitOnComma_nil] at h
    simp at h
    simp [h]
  | cons c cs ih =>
    rw [splitOnComma_cons] at h
    by_cases hc : c = ','
    · rw [if_pos hc] at h
      rcases List.mem_cons.mp h with rfl | h2
      · simp
      · exact ih h2
    · rw [if_neg hc] at h
      rcases List.mem_cons.mp h with rfl | h2
      · intro hmem
        rcases List.mem_cons.mp hmem with rfl | h3
        · exact hc rfl
        · exact ih (headI_mem (splitOnComma_ne_nil cs)) h3
      · exact ih (mem_of_mem_tail h2)

theorem joinComma_nil : joinComma [] = [] := rfl

theorem joinComma_single {t : Str} : joinComma [t] = t := rfl

theorem joinComma_cons_cons {t t2 : Str} {ts : List Str} :
    joinComma (t :: t2 :: ts) = t ++ ',' :: joinComma (t2 :: ts) := rfl

theorem splitOnComma_append_comma {t rest : Str} (h : ',' ∉ t) :
    splitOnComma (t ++ ',' :: rest) = t :: splitOnComma rest := by
  induction t with
  | nil => simp [splitOnComma_cons]
  | cons c t ih =>
    have hc : c ≠ ',' := fun hcc => h (by simp [hcc])
    have ht : ',' ∉ t := fun hmt => h (by simp [hmt])
    rw [List.cons_append, splitOnComma_cons, if_neg hc, ih ht]
    simp

theorem splitOnComma_comma_free {t : Str} (h : ',' ∉ t) :
    splitOnComma t = [t] := by
  induction t with
  | nil => rfl
  | cons c t ih =>
    have hc : c ≠ ',' := fun hcc => h (by simp [hcc])
    have ht : ',' ∉ t := fun hmt => h (by simp [hmt])
    rw [splitOnComma_cons, if_neg hc, ih ht]
    simp

theorem splitOnComma_joinComma {ts : List Str} (h1 : ts ≠ [])
    (h2 : ∀ t ∈ ts, ',' ∉ t) : splitOnComma (joinComma ts) = ts := by
  induction ts with
  | nil => exact absurd rfl h1
  | cons t ts ih =>
    cases ts with
    | nil => rw [joinComma_single]; exact splitOnComma_comma_free (h2 t (by simp))
    | cons t2 ts2 =>
      rw [joinComma_cons_cons, splitOnComma_append_comma (h2 t (by simp))]
      rw [ih (by simp) fun u hu => h2 u (by simp [hu])]

theorem joinComma_eq_nil {ts : List Str} (h : joinComma ts = []) :
    ts = [] ∨ ts = [[]] := by
  match ts with
  | [] => exact Or.inl rfl
  | [t] => rw [joinComma_single] at h; exact Or.inr (by rw [h])
  | t :: t2 :: ts2 =>
    rw [joinComma_cons_cons] at h
    rcases List.append_eq_nil.mp h with ⟨_, h3⟩
    simp at h3

theorem dropTrail_nil : dropTrail [] = [] := rfl

theorem dropTrail_cons {c : Char} {cs : Str} :
    dropTrail (c :: cs) =
      if dropTrail cs = [] ∧ isSpace c then [] else c :: dropTrail cs := rfl

theorem dropLead_dropLead (s : Str) : dropLead (dropLead s) = dropLead s := by
  induction s with
  | nil => rfl
  | cons c cs ih =>
    by_cases h : isSpace c
    · simpa [dropLead, List.dropWhile_cons, h] using ih
    · simp [dropLead, List.dropWhile_cons, h]

theorem dropTrail_dropTrail (s : Str) : dropTrail (dropTrail s) = dropTrail s := by
  induction s with
  | nil => rfl
  | cons c cs ih =>
    rw [dropTrail_cons]
    by_cases h : dropTrail cs = [] ∧ isSpace c
    · rw [if_pos h]; rfl
    · rw [if_neg h, dropTrail_cons, ih, if_neg h]

theorem isSpace_false_of_dropLead_fixed {c : Char} {cs : Str}
    (h : dropLead (c :: cs) = c :: cs) : isSpace c = false := by
  by_contra hsp
  have hsp2 : isSpace c = true := by
    cases hc : isSpace c
    · exact absurd hc hsp
    · rfl
  rw [dropLead, List.dropWhile_cons, if_pos hsp2] at h
  have hsub : (List.dropWhile isSpace cs).Sublist cs := List.dropWhile_sublist isSpace
  have hlen : (List.dropWhile isSpace cs).length ≤ cs.length := hsub.length_le
  rw [h] at hlen
  simp at hlen

theorem dropLead_dropTrail {u : Str} (h : dropLead u = u) :
    dropLead (dropTrail u) = dropTrail u := by
  cases u with
  | nil => rfl
  | cons c cs =>
    have hc : isSpace c = false := isSpace_false_of_dropLead_fixed h
    rw [dropTrail_cons]
    by_cases h2 : dropTrail cs = [] ∧ isSpace c
    · rw [if_pos h2]; rfl
    · rw [if_neg h2, dropLead, List.dropWhile_cons, if_neg (by simp [hc])]

theorem trimSpace_trimSpace (s : Str) : trimSpace (trimSpace s) = trimSpace s := by
  unfold trimSpace
  rw [dropLead_dropTrail (dropLead_dropLead s), dropTrail_dropTrail]

theorem mem_of_mem_dropTrail {l : Str} {c : Char} (h : c ∈ dropTrail l) : c ∈ l := by
  induction l with
  | nil => simp [dropTrail_nil] at h
  | cons a cs ih =>
    rw [dropTrail_cons] at h
    split at h
    · simp at h
    · rcases List.mem_cons.mp h with rfl | h2
      · simp
      · exact List.mem_cons_of_mem a (ih h2)

theorem mem_of_mem_trimSpace {t : Str} {c : Char} (h : c ∈ trimSpace t) : c ∈ t := by
  unfold trimSpace at h
  have hsub : (List.dropWhile isSpace t).Sublist t := List.dropWhile_sublist isSpace
  exact hsub.subset (mem_of_mem_dropTrail h)

theorem comma_not_mem_trimSpace {t : Str} (h : ',' ∉ t) : ',' ∉ trimSpace t :=
  fun hm => h (mem_of_mem_trimSpace hm)

/-! ### Helper lemmas about headers and query values -/

theorem getVal_setVal_same {l : List (Str × Str)} {k v : Str} :
    getVal (setVal l k v) k = v := by
  simp [getVal, setVal, lookupVal]

theorem lookupVal_filter_ne {l : List (Str × Str)} {k k2 : Str} (h : k2 ≠ k) :
    lookupVal (l.filter (fun p => decide (p.1 ≠ k))) k2 = lookupVal l k2 := by
  induction l with
  | nil => rfl
  | cons p rest ih =>
    obtain ⟨a, b⟩ := p
    by_cases ha : a = k
    · subst ha
      rw [List.filter_cons_of_neg (by simp), ih]
      rw [lookupVal, if_neg (fun hh => h hh.symm)]
    · rw [List.filter_cons_of_pos (by simp [ha])]
      by_cases hak : a = k2
      · subst hak
        rw [lookupVal, if_pos rfl, lookupVal, if_pos rfl]
      · rw [lookupVal, if_neg hak, lookupVal, if_neg hak, ih]

theorem getVal_setVal_other {l : List (Str × Str)} {k k2 v : Str} (h : k2 ≠ k) :
    getVal (setVal l k v) k2 = getVal l k2 := by
  rw [getVal, setVal, lookupVal, if_neg (fun hh => h hh.symm),
    lookupVal_filter_ne h, getVal]

theorem mem_setVal_self {l : List (Str × Str)} {k v : Str} :
    (k, v) ∈ setVal l k v := by
  simp [setVal]

theorem mem_setVal_of_ne {l : List (Str × Str)} {kv : Str × Str} {k v : Str}
    (hm : kv ∈ l) (hk : kv.1 ≠ k) : kv ∈ setVal l k v := by
  rw [setVal]
  exact List.mem_cons_of_mem _ (List.mem_filter.mpr ⟨hm, by simpa⟩)

theorem headers_applyBetaQuery {cfg : Config} {r : Request} :
    (applyBetaQuery cfg r).headers = r.headers := by
  rw [applyBetaQuery]
  split <;> rfl

theorem query_applyBetaHeader {cfg : Config} {r : Request} :
    (applyBetaHeader cfg r).query = r.query := by
  rw [applyBetaHeader]
  split <;> rfl

theorem query_applyUserAgent {cfg : Config} {r : Request} :
    (applyUserAgent cfg r).query = r.query := by
  rw [applyUserAgent]
  split <;> rfl

theorem getVal_applyUserAgent {cfg : Config} {r : Request} {k : Str}
    (h : k ≠ userAgentKey) :
    getVal (applyUserAgent cfg r).headers k = getVal r.headers k := by
  rw [applyUserAgent]
  split
  · exact getVal_setVal_other h
  · rfl

theorem getVal_applyBetaHeader {cfg : Config} {r : Request} {k : Str}
    (h : k ≠ betaHeaderKey) :
    getVal (applyBetaHeader cfg r).headers k = getVal r.headers k := by
  rw [applyBetaHeader]
  split
  · exact getVal_setVal_other h
  · rfl

theorem getVal_oauthMutate_of_ne {cfg : Config} {r : Request} {k : Str}
    (h1 : k ≠ betaHeaderKey) (h2 : k ≠ userAgentKey) :
    getVal (oauthMutate cfg r).headers k = getVal r.headers k := by
  rw [oauthMutate, headers_applyBetaQuery, getVal_applyUserAgent h2,
    getVal_applyBetaHeader h1]

/-! ### Helper lemmas about the beta-flag merge -/

theorem mem_mergedBetaKeys {existing : Str} {flags : List Str} {a : Str} :
    a ∈ mergedBetaKeys existing flags ↔
      a ∈ (splitOnComma existing).map trimSpace ∨ a ∈ flags := by
  rw [mergedBetaKeys, mem_insertKeys, mem_insertKeys]
  simp

theorem nodup_mergedBetaKeys {existing : Str} {flags : List Str} :
    (mergedBetaKeys existing flags).Nodup :=
  nodup_insertKeys (nodup_insertKeys List.nodup_nil)

theorem mergedBetaKeys_ne_nil {existing : Str} {flags : List Str} :
    mergedBetaKeys existing flags ≠ [] := by
  have hmem : trimSpace (splitOnComma existing).headI ∈ mergedBetaKeys existing flags :=
    mem_mergedBetaKeys.mpr
      (Or.inl (List.mem_map_of_mem _ (headI_mem (splitOnComma_ne_nil _))))
  exact List.ne_nil_of_mem hmem

theorem comma_free_mergedBetaKeys {existing : Str} {flags : List Str}
    (hf : ∀ f ∈ flags, ',' ∉ f) :
    ∀ k ∈ mergedBetaKeys existing flags, ',' ∉ k := by
  intro k hk
  rcases mem_mergedBetaKeys.mp hk with h | h
  · rcases List.mem_map.mp h with ⟨t, ht, rfl⟩
    exact comma_not_mem_trimSpace (comma_not_mem_of_mem_splitOnComma ht)
  · exact hf k h

theorem trim_fixed_mergedBetaKeys {existing : Str} {flags : List Str}
    (hf : ∀ f ∈ flags, trimSpace f = f) :
    ∀ k ∈ mergedBetaKeys existing flags, trimSpace k = k := by
  intro k hk
  rcases mem_mergedBetaKeys.mp hk with h | h
  · rcases List.mem_map.mp h with ⟨t, _, rfl⟩
    exact trimSpace_trimSpace t
  · exact hf k h

theorem map_eq_self_of_fixed {f : Str → Str} {l : List Str}
    (h : ∀ x ∈ l, f x = x) : l.map f = l := by
  induction l with
  | nil => rfl
  | cons x xs ih =>
    rw [List.map_cons, h x (by simp), ih fun y hy => h y (by simp [hy])]

theorem mergeBetaHeaderValue_of_ne_nil {existing : Str} {flags : List Str}
    (h : existing ≠ []) :
    mergeBetaHeaderValue existing flags = joinComma (mergedBetaKeys existing flags) := by
  rw [mergeBetaHeaderValue, if_pos h]

theorem mergeBetaHeaderValue_nil {flags : List Str} :
    mergeBetaHeaderValue [] flags = joinComma flags := by
  rw [mergeBetaHeaderValue]
  simp

theorem splitOnComma_mergeBetaHeaderValue {existing : Str} {flags : List Str}
    (h : existing ≠ []) (hf : ∀ f ∈ flags, ',' ∉ f) :
    splitOnComma (mergeBetaHeaderValue existing flags) = mergedBetaKeys existing flags := by
  rw [mergeBetaHeaderValue_of_ne_nil h]
  exact splitOnComma_joinComma mergedBetaKeys_ne_nil (comma_free_mergedBetaKeys hf)

theorem count_le_one_of_nodup {l : List Str} (h : l.Nodup) (a : Str) :
    List.count a l ≤ 1 := by
  induction l with
  | nil => simp
  | cons x xs ih =>
    obtain ⟨hx, hxs⟩ := List.nodup_cons.mp h
    rw [List.count_cons]
    by_cases hxa : x = a
    · subst hxa
      have hzero : List.count x xs = 0 := by
        rw [List.count_eq_zero]
        exact hx
      simp [hzero]
    · simp [hxa, ih hxs]

/-! ### The claims -/

/-- Claim C3: the process-wide default capability-flag list has length exactly
4 and equals, positionally in this order, `oauth-2025-04-20`,
`interleaved-thinking-2025-05-14`, `claude-code-20250219`,
`fine-grained-tool-streaming-2025-05-14`; and every construction path
(`WithConfig`, `WithAccessToken`, `WithLoadEnv`) substitutes exactly this
list, in this order, whenever the caller supplies no flags. -/
theorem C3_theorem :
    DefaultOAuthBetas.length = 4 ∧
    DefaultOAuthBetas =
      [strOf "oauth-2025-04-20", strOf "interleaved-thinking-2025-05-14",
       strOf "claude-code-20250219", strOf "fine-grained-tool-streaming-2025-05-14"] ∧
    (∀ cfg : Config, cfg.betas = [] → (effectiveConfig cfg).betas = DefaultOAuthBetas) ∧
    (∀ token : Str, (effectiveConfig (withAccessTokenConfig token)).betas = DefaultOAuthBetas) ∧
    (∀ env : Str → Str, (effectiveConfig (withLoadEnvConfig env)).betas = DefaultOAuthBetas) := by
  refine ⟨rfl, rfl, ?_, ?_, ?_⟩
  · intro cfg h
    rw [effectiveConfig, if_pos h]
  · intro token
    rw [effectiveConfig, if_pos (show (withAccessTokenConfig token).betas = [] from rfl)]
  · intro env
    rw [effectiveConfig, if_pos (show (withLoadEnvConfig env).betas = [] from rfl)]

/-- Witness for C3 at a concrete flagless `Config`. -/
theorem C3_theorem_witness :
    (effectiveConfig ⟨strOf "T", [], [], [], false⟩).betas = DefaultOAuthBetas :=
  C3_theorem.2.2.1 ⟨strOf "T", [], [], [], false⟩ rfl

/-- Claim C4: credential resolution over the two environment variables
(injected as a key-value lookup that returns the empty string for unset
variables, as `os.Getenv` does) returns the primary variable's value when it
is non-empty, otherwise the fallback variable's value, and the empty string
when both are empty; and `WithLoadEnv` consults the environment only while
building the `Config` (the resulting configuration is exactly the
`WithAccessToken` configuration of the resolved token, so no later mutation
reads the environment). -/
theorem C4_theorem (env : Str → Str) :
    (env primaryEnvVar ≠ [] → resolveEnvToken env = env primaryEnvVar) ∧
    (env primaryEnvVar = [] → resolveEnvToken env = env fallbackEnvVar) ∧
    (env primaryEnvVar = [] → env fallbackEnvVar = [] → resolveEnvToken env = []) ∧
    withLoadEnvConfig env = withAccessTokenConfig (resolveEnvToken env) := by
  refine ⟨?_, ?_, ?_, rfl⟩
  · intro h
    rw [resolveEnvToken]
    simp [h]
  · intro h
    rw [resolveEnvToken]
    simp [h]
  · intro h1 h2
    rw [resolveEnvToken]
    simp [h1, h2]

/-- Witness for C4: with only the fallback variable set to `E`, the resolved
credential equals `E`. -/
theorem C4_theorem_witness :
    resolveEnvToken (fun k => if k = fallbackEnvVar then strOf "E" else []) = strOf "E" :=
  ((C4_theorem (fun k => if k = fallbackEnvVar then strOf "E" else [])).2.1
    (by decide)).trans (by decide)

/-- Claim C9: for every request, the middleware invokes its successor exactly
once, on the mutated request, and returns the successor's result unchanged,
for an arbitrary result type (in particular for a response-or-error result):
it performs no retry and never replaces, wraps or swallows the outcome. -/
theorem C9_theorem {α : Type} (cfg : Config) (r : Request) (next : Request → α) :
    oauthMiddleware cfg r next = next (oauthMutate cfg r) := rfl

/-- Claim C10: the deduplication is asymmetric with respect to whitespace:
the existing header `"a"` merged with the configured flag `" a"` produces
the key list `["a", " a"]` (existing token trimmed, flag kept verbatim), and
the merged header value contains the two distinct tokens `"a"` and `" a"`,
which are equal after trimming. -/
theorem C10_theorem :
    mergedBetaKeys (strOf "a") [strOf " a"] = [strOf "a", strOf " a"] ∧
    strOf "a" ≠ strOf " a" ∧
    trimSpace (strOf "a") = trimSpace (strOf " a") ∧
    strOf "a" ∈ splitOnComma (mergeBetaHeaderValue (strOf "a") [strOf " a"]) ∧
    strOf " a" ∈ splitOnComma (mergeBetaHeaderValue (strOf "a") [strOf " a"]) := by
  exact ⟨by decide, by decide, by decide, by decide, by decide⟩

/-- Claim C1 counterexample: with an empty existing header value and the
repeated flag list `["a", "a"]`, the merged header value is `"a,a"`, whose
token `"a"` appears twice — so the claimed no-duplicates property fails for
the empty existing header value. -/
theorem C1_counterexample :
    mergeBetaHeaderValue [] [strOf "a", strOf "a"] = strOf "a,a" ∧
    List.count (strOf "a") (splitOnComma (mergeBetaHeaderValue [] [strOf "a", strOf "a"])) = 2 := by
  exact ⟨by decide, by decide⟩

/-- Claim C1 amended: for every NON-empty existing capability-flag header
value and every flag list, the merged header value is the comma-join of the
deduplication keys, the keys contain every trimmed token of the existing
value and every added flag, they contain nothing else, and no key appears
twice — regardless of the order or repetition of tokens in either input.
(With an empty existing value the code joins the flags without any
deduplication, so repeated flags survive.) -/
theorem C1_theorem (existing : Str) (flags : List Str) (h : existing ≠ []) :
    mergeBetaHeaderValue existing flags = joinComma (mergedBetaKeys existing flags) ∧
    (mergedBetaKeys existing flags).Nodup ∧
    (∀ t ∈ splitOnComma existing, trimSpace t ∈ mergedBetaKeys existing flags) ∧
    (∀ f ∈ flags, f ∈ mergedBetaKeys existing flags) ∧
    (∀ k ∈ mergedBetaKeys existing flags,
        k ∈ (splitOnComma existing).map trimSpace ∨ k ∈ flags) := by
  refine ⟨mergeBetaHeaderValue_of_ne_nil h, nodup_mergedBetaKeys, ?_, ?_, ?_⟩
  · intro t ht
    exact mem_mergedBetaKeys.mpr (Or.inl (List.mem_map_of_mem _ ht))
  · intro f hf
    exact mem_mergedBetaKeys.mpr (Or.inr hf)
  · intro k hk
    exact mem_mergedBetaKeys.mp hk

/-- Witness for C1 at the spec's own example: existing `"a,b"` merged with
`["b", "c"]`. -/
theorem C1_theorem_witness :
    (mergedBetaKeys (strOf "a,b") [strOf "b", strOf "c"]).Nodup ∧
    strOf "c" ∈ mergedBetaKeys (strOf "a,b") [strOf "b", strOf "c"] := by
  have h := C1_theorem (strOf "a,b") [strOf "b", strOf "c"] (by decide)
  exact ⟨h.2.1, h.2.2.2.1 (strOf "c") (by decide)⟩

/-- Claim C5: for every configuration with a non-empty flag list, if the
request's existing capability-flag header value is empty, the header set by
the mutator is exactly the flags joined by commas in their given order, with
no deduplication pass applied. -/
theorem C5_theorem (cfg : Config) (r : Request) (hb : cfg.betas ≠ [])
    (h : getVal r.headers betaHeaderKey = []) :
    getVal (oauthMutate cfg r).headers betaHeaderKey = joinComma cfg.betas := by
  rw [oauthMutate, headers_applyBetaQuery, getVal_applyUserAgent (by decide)]
  rw [applyBetaHeader, if_pos hb]
  show getVal (setVal r.headers betaHeaderKey
      (mergeBetaHeaderValue (getVal r.headers betaHeaderKey) cfg.betas)) betaHeaderKey = _
  rw [getVal_setVal_same, h, mergeBetaHeaderValue_nil]

/-- Witness for C5: flags `["a", "b"]` against a request with no
capability-flag header yield exactly `"a,b"`. -/
theorem C5_theorem_witness :
    getVal (oauthMutate ⟨[], [], [strOf "a", strOf "b"], [], false⟩ ⟨[], []⟩).headers
      betaHeaderKey = strOf "a,b" :=
  (C5_theorem ⟨[], [], [strOf "a", strOf "b"], [], false⟩ ⟨[], []⟩
    (by decide) (by decide)).trans (by decide)

/-- Claim C2: for every `Config` whose access token is the empty string, the
configuration unit built by `WithConfig` (the spec-modelled authorization
sub-unit composed with the oauth middleware mutation) leaves the
Authorization header of every request exactly as it found it, so the
header's final value is determined entirely by the other configuration
units, as if this unit were absent. -/
theorem C2_theorem (cfg : Config) (r : Request) (h : cfg.accessToken = []) :
    getVal (withConfigApply cfg r).headers authorizationKey =
      getVal r.headers authorizationKey := by
  have he : (effectiveConfig cfg).accessToken = [] := by
    rw [effectiveConfig]
    split <;> simpa
  rw [withConfigApply, getVal_oauthMutate_of_ne (by decide) (by decide),
    withAuthTokenApply, if_pos he]

/-- Witness for C2: an Authorization header established by another unit
survives the empty-token oauth unit unchanged. -/
theorem C2_theorem_witness :
    getVal (withConfigApply ⟨[], [], [], [], false⟩
        ⟨[(authorizationKey, strOf "Bearer other")], []⟩).headers authorizationKey =
      strOf "Bearer other" :=
  (C2_theorem ⟨[], [], [], [], false⟩
    ⟨[(authorizationKey, strOf "Bearer other")], []⟩ rfl).trans (by decide)

/-- Claim C7: in the merge branch, existing-header tokens that trim to the
empty string are not filtered out: every trimmed token — the empty string
included — is inserted as a deduplication key, the empty-string key appears
at most once, and the merged header value is exactly the comma-join of those
keys, with no filtering beyond what splitting and trimming produce. -/
theorem C7_theorem (existing : Str) (flags : List Str) (h : existing ≠ []) :
    (∀ t ∈ splitOnComma existing, trimSpace t ∈ mergedBetaKeys existing flags) ∧
    ((∃ t ∈ splitOnComma existing, trimSpace t = []) →
        ([] : Str) ∈ mergedBetaKeys existing flags) ∧
    List.count ([] : Str) (mergedBetaKeys existing flags) ≤ 1 ∧
    mergeBetaHeaderValue existing flags = joinComma (mergedBetaKeys existing flags) := by
  refine ⟨?_, ?_, ?_, mergeBetaHeaderValue_of_ne_nil h⟩
  · intro t ht
    exact mem_mergedBetaKeys.mpr (Or.inl (List.mem_map_of_mem _ ht))
  · rintro ⟨t, ht, htr⟩
    exact htr ▸ mem_mergedBetaKeys.mpr (Or.inl (List.mem_map_of_mem _ ht))
  · exact count_le_one_of_nodup nodup_mergedBetaKeys []

/-- Witness for C7: the existing value `" , ,a"` produces the empty-string
key exactly once. -/
theorem C7_theorem_witness :
    ([] : Str) ∈ mergedBetaKeys (strOf " , ,a") [strOf "b"] ∧
    List.count ([] : Str) (mergedBetaKeys (strOf " , ,a") [strOf "b"]) ≤ 1 := by
  have h := C7_theorem (strOf " , ,a") [strOf "b"] (by decide)
  exact ⟨h.2.1 ⟨strOf " ", by decide, by decide⟩, h.2.2.1⟩

/-- Claim C8 counterexample: a request whose query already carries the
marker parameter with value `"false"` loses that pair — `q.Set` overwrites
it — so the mutated query does not contain every pre-existing parameter. -/
theorem C8_counterexample :
    (betaQueryKey, strOf "false") ∈
        (⟨[], [(betaQueryKey, strOf "false"), (strOf "foo", strOf "bar")]⟩ : Request).query ∧
    (betaQueryKey, strOf "false") ∉
        (oauthMutate ⟨[], [], [strOf "a"], [], true⟩
          ⟨[], [(betaQueryKey, strOf "false"), (strOf "foo", strOf "bar")]⟩).query := by
  exact ⟨by decide, by decide⟩

/-- Claim C8 amended: with `UseBetaEndpoint` set, the mutated request's
query contains the marker parameter with the literal value `true` (and the
marker key looks up to `true`), and still contains every pre-existing query
parameter whose key differs from the marker key; a pre-existing parameter
under the marker key itself is overwritten. -/
theorem C8_theorem (cfg : Config) (r : Request) (h : cfg.useBetaEndpoint = true) :
    (betaQueryKey, trueVal) ∈ (oauthMutate cfg r).query ∧
    getVal (oauthMutate cfg r).query betaQueryKey = trueVal ∧
    (∀ kv ∈ r.query, kv.1 ≠ betaQueryKey → kv ∈ (oauthMutate cfg r).query) := by
  have hq : (oauthMutate cfg r).query =
      setVal (applyUserAgent cfg (applyBetaHeader cfg r)).query betaQueryKey trueVal := by
    rw [oauthMutate, applyBetaQuery, if_pos (by simp [h])]
  rw [hq, query_applyUserAgent, query_applyBetaHeader]
  refine ⟨mem_setVal_self, getVal_setVal_same, ?_⟩
  intro kv hm hk
  exact mem_setVal_of_ne hm hk

/-- Witness for C8: the spec's example — existing query `foo=bar` — keeps
`foo=bar` and gains the marker set to `true`. -/
theorem C8_theorem_witness :
    (betaQueryKey, trueVal) ∈ (oauthMutate ⟨[], [], [], [], true⟩
        ⟨[], [(strOf "foo", strOf "bar")]⟩).query ∧
    (strOf "foo", strOf "bar") ∈ (oauthMutate ⟨[], [], [], [], true⟩
        ⟨[], [(strOf "foo", strOf "bar")]⟩).query := by
  have h := C8_theorem ⟨[], [], [], [], true⟩ ⟨[], [(strOf "foo", strOf "bar")]⟩ rfl
  exact ⟨h.1, h.2.2 (strOf "foo", strOf "bar") (by decide) (by decide)⟩

/-- Claim C6 counterexample: re-applying the merge with the identical flag
list changes the token set when a flag carries surrounding whitespace (flag
`" a"`) or whitespace next to an inner comma (flag `"a , b"`): in both cases
the token `"a"` appears only after the second merge, because the first
merge's serialized header is re-split and re-trimmed while the flag is
re-inserted verbatim. -/
theorem C6_counterexample :
    (strOf "a" ∈ splitOnComma (mergeBetaHeaderValue
        (mergeBetaHeaderValue (strOf "x") [strOf " a"]) [strOf " a"]) ∧
     strOf "a" ∉ splitOnComma (mergeBetaHeaderValue (strOf "x") [strOf " a"])) ∧
    (strOf "a" ∈ splitOnComma (mergeBetaHeaderValue
        (mergeBetaHeaderValue (strOf "x") [strOf "a , b"]) [strOf "a , b"]) ∧
     strOf "a" ∉ splitOnComma (mergeBetaHeaderValue (strOf "x") [strOf "a , b"])) := by
  exact ⟨⟨by decide, by decide⟩, ⟨by decide, by decide⟩⟩

/-- Claim C6 amended: the merge is idempotent on the token set provided
every flag to add is comma-free and equal to its own trim (no surrounding
whitespace): for every existing header value, merging the same flags into
the result of a first merge leaves the set of header tokens unchanged. -/
theorem C6_theorem (s : Str) (flags : List Str)
    (hf : ∀ f ∈ flags, trimSpace f = f ∧ ',' ∉ f) (t : Str) :
    t ∈ splitOnComma (mergeBetaHeaderValue (mergeBetaHeaderValue s flags) flags) ↔
      t ∈ splitOnComma (mergeBetaHeaderValue s flags) := by
  have hcf : ∀ f ∈ flags, ',' ∉ f := fun f h => (hf f h).2
  have htf : ∀ f ∈ flags, trimSpace f = f := fun f h => (hf f h).1
  by_cases hs : s = []
  · subst hs
    rw [mergeBetaHeaderValue_nil]
    by_cases hfl : flags = []
    · subst hfl
      rw [joinComma_nil, mergeBetaHeaderValue_nil, joinComma_nil]
    · have hsplit : splitOnComma (joinComma flags) = flags :=
        splitOnComma_joinComma hfl hcf
      by_cases hj : joinComma flags = []
      · rw [hj, mergeBetaHeaderValue_nil, hj]
      · rw [splitOnComma_mergeBetaHeaderValue hj hcf, mem_mergedBetaKeys, hsplit,
          map_eq_self_of_fixed htf]
        tauto
  · have hK1 : splitOnComma (mergeBetaHeaderValue s flags) = mergedBetaKeys s flags :=
      splitOnComma_mergeBetaHeaderValue hs hcf
    by_cases hr1 : mergeBetaHeaderValue s flags = []
    · have hKeq : mergedBetaKeys s flags = [[]] := by
        rw [hr1, splitOnComma_nil] at hK1
        exact hK1.symm
      have hflags : ∀ f ∈ flags, f = ([] : Str) := by
        intro f hf2
        have hm : f ∈ mergedBetaKeys s flags := mem_mergedBetaKeys.mpr (Or.inr hf2)
        rw [hKeq] at hm
        simpa using hm
      rw [hr1, mergeBetaHeaderValue_nil, splitOnComma_nil]
      by_cases hfl : flags = []
      · subst hfl
        rw [joinComma_nil, splitOnComma_nil]
      · rw [splitOnComma_joinComma hfl hcf]
        constructor
        · intro ht
          simp [hflags t ht]
        · intro ht
          obtain ⟨f0, hf0⟩ := List.exists_mem_of_ne_nil flags hfl
          have ht0 : t = ([] : Str) := by simpa using ht
          rw [ht0]
          exact (hflags f0 hf0) ▸ hf0
    · rw [splitOnComma_mergeBetaHeaderValue hr1 hcf, mem_mergedBetaKeys, hK1,
        map_eq_self_of_fixed (trim_fixed_mergedBetaKeys htf)]
      constructor
      · rintro (h | h)
        · exact h
        · exact mem_mergedBetaKeys.mpr (Or.inr h)
      · exact Or.inl

/-- Witness for C6: the comma-free, trimmed flags `["b", "c"]` merged twice
into `"a,b"` still carry the token `"c"`. -/
theorem C6_theorem_witness :
    strOf "c" ∈ splitOnComma (mergeBetaHeaderValue
        (mergeBetaHeaderValue (strOf "a,b") [strOf "b", strOf "c"]) [strOf "b", strOf "c"]) :=
  (C6_theorem (strOf "a,b") [strOf "b", strOf "c"] (by decide) (strOf "c")).mpr (by decide)

end OAuthSpec
